import Mathlib

/- Verification of the `julian` Go package: conversion between absolute
instants (counted in nanoseconds since the Unix epoch, as returned by
`time.Time.UnixNano`) and Julian dates stored as IEEE-754 binary64 values.

Binary64 values are embedded as the rationals they denote.  `FP.fl` rounds a
rational to 53 significant bits (round to nearest, ties to even) with an
unbounded exponent range; no claim of this development exercises overflow,
infinities or subnormal values, whose magnitudes are far outside the ranges
involved.  Go's float64-to-integer conversions truncate toward zero, embedded
as `FP.rtrunc`; `math.Mod (x, 1)`, which is exact on binary64, is embedded as
the exact rational operation `FP.mod1`. -/

namespace FP

/-- Round a rational to the nearest integer, ties to even. -/
def rne (q : ℚ) : ℤ :=
  if q - ⌊q⌋ < 1/2 then ⌊q⌋
  else if 1/2 < q - ⌊q⌋ then ⌊q⌋ + 1
  else if ⌊q⌋ % 2 = 0 then ⌊q⌋ else ⌊q⌋ + 1

theorem floor_le_rne (q : ℚ) : ⌊q⌋ ≤ rne q := by
  unfold rne; split_ifs <;> omega

theorem rne_le_floor_add_one (q : ℚ) : rne q ≤ ⌊q⌋ + 1 := by
  unfold rne; split_ifs <;> omega

theorem rne_intCast (n : ℤ) : rne (n : ℚ) = n := by
  unfold rne
  rw [Int.floor_intCast]
  split_ifs with h <;> simp_all

theorem abs_rne_sub_le (q : ℚ) : |(rne q : ℚ) - q| ≤ 1/2 := by
  have h1 : (⌊q⌋ : ℚ) ≤ q := Int.floor_le q
  have h2 : q < ⌊q⌋ + 1 := Int.lt_floor_add_one q
  unfold rne
  split_ifs with hlt hgt hev <;> rw [abs_sub_le_iff] <;> constructor <;> push_cast <;> linarith

theorem rne_int_add_lt_half {n : ℤ} {t : ℚ} (h0 : 0 ≤ t) (h1 : t < 1/2) :
    rne ((n : ℚ) + t) = n := by
  have hf : ⌊(n : ℚ) + t⌋ = n := by
    rw [Int.floor_int_add, Int.floor_eq_zero_iff.2 ⟨h0, by linarith⟩, add_zero]
  have ht : (n : ℚ) + t - (n : ℚ) = t := by ring
  unfold rne
  rw [hf, ht, if_pos h1]

theorem rne_nonneg {q : ℚ} (h : 0 ≤ q) : 0 ≤ rne q := by
  have := floor_le_rne q
  have := Int.floor_nonneg.2 h
  omega

theorem rne_mono {x y : ℚ} (h : x ≤ y) : rne x ≤ rne y := by
  by_cases hf : ⌊x⌋ < ⌊y⌋
  · have h1 := rne_le_floor_add_one x
    have h2 := floor_le_rne y
    omega
  · have hfe : ⌊x⌋ = ⌊y⌋ := le_antisymm (Int.floor_mono h) (by omega)
    have hxy : x - (⌊y⌋ : ℚ) ≤ y - (⌊y⌋ : ℚ) := by linarith
    unfold rne
    rw [hfe]
    split_ifs <;> first | omega | (exfalso; linarith)

/-- Exponent scale of a positive rational: `q / 2 ^ flExp q` lies in
`[2^52, 2^53)`, the scaled-significand range of binary64. -/
def flExp (q : ℚ) : ℤ := Int.log 2 q - 52

/-- Rounding of a positive rational to 53 significant bits via its scaled
significand. -/
def flPos (q : ℚ) : ℚ := (rne (q / 2 ^ flExp q) : ℚ) * 2 ^ flExp q

/-- Round a rational to the nearest binary64 value: 53-bit significand,
round to nearest with ties to even, unbounded exponent range. -/
def fl (q : ℚ) : ℚ := if q < 0 then -flPos (-q) else if q = 0 then 0 else flPos q

theorem fl_zero : fl 0 = 0 := by unfold fl; norm_num

theorem fl_of_pos {q : ℚ} (h : 0 < q) : fl q = flPos q := by
  unfold fl
  rw [if_neg (by linarith), if_neg (by linarith)]

theorem fl_of_neg {q : ℚ} (h : q < 0) : fl q = -flPos (-q) := by
  unfold fl
  rw [if_pos h]

theorem two_zpow_ne_zero (e : ℤ) : (2:ℚ) ^ e ≠ 0 := zpow_ne_zero e two_ne_zero

theorem two_zpow_pos (e : ℤ) : (0:ℚ) < 2 ^ e := zpow_pos (by norm_num) e

theorem scaled_lb {q : ℚ} (hq : 0 < q) : (2:ℚ) ^ (52:ℤ) ≤ q / 2 ^ flExp q := by
  have h1 : ((2:ℕ):ℚ) ^ (Int.log 2 q) ≤ q := Int.zpow_log_le_self (by norm_num) hq
  have h2 : ((2:ℕ):ℚ) = (2:ℚ) := by norm_num
  rw [h2] at h1
  have h3 : (2:ℚ) ^ (Int.log 2 q) / 2 ^ flExp q ≤ q / 2 ^ flExp q := by
    gcongr
  calc (2:ℚ) ^ (52:ℤ) = 2 ^ (Int.log 2 q) / 2 ^ flExp q := by
        rw [← zpow_sub₀ two_ne_zero]
        congr 1
        unfold flExp
        omega
    _ ≤ q / 2 ^ flExp q := h3

theorem scaled_ub {q : ℚ} (_hq : 0 < q) : q / 2 ^ flExp q < (2:ℚ) ^ (53:ℤ) := by
  have h1 : q < ((2:ℕ):ℚ) ^ (Int.log 2 q + 1) := Int.lt_zpow_succ_log_self (by norm_num) q
  have h2 : ((2:ℕ):ℚ) = (2:ℚ) := by norm_num
  rw [h2] at h1
  have h3 : q / 2 ^ flExp q < (2:ℚ) ^ (Int.log 2 q + 1) / 2 ^ flExp q := by
    gcongr
  calc q / 2 ^ flExp q < (2:ℚ) ^ (Int.log 2 q + 1) / 2 ^ flExp q := h3
    _ = (2:ℚ) ^ (53:ℤ) := by
        rw [← zpow_sub₀ two_ne_zero]
        congr 1
        unfold flExp
        omega

theorem abs_flPos_sub_le {q : ℚ} (hq : 0 < q) : |flPos q - q| ≤ q / 2 ^ (53:ℤ) := by
  have hE := two_zpow_pos (flExp q)
  have hcancel : q / 2 ^ flExp q * 2 ^ flExp q = q := div_mul_cancel₀ q (two_zpow_ne_zero _)
  have h1 : flPos q - q = ((rne (q / 2 ^ flExp q) : ℚ) - q / 2 ^ flExp q) * 2 ^ flExp q := by
    unfold flPos
    rw [sub_mul, hcancel]
  have h2 : |flPos q - q| ≤ 1/2 * 2 ^ flExp q := by
    rw [h1, abs_mul, abs_of_pos hE]
    exact mul_le_mul_of_nonneg_right (abs_rne_sub_le _) (le_of_lt hE)
  have h3 : (1:ℚ)/2 * 2 ^ flExp q ≤ q / 2 ^ (53:ℤ) := by
    rw [le_div_iff₀ (two_zpow_pos _)]
    have hexp : (1:ℚ)/2 * 2 ^ flExp q * 2 ^ (53:ℤ) = 2 ^ (Int.log 2 q) := by
      rw [mul_assoc, ← zpow_add₀ two_ne_zero]
      have he : flExp q + 53 = Int.log 2 q + 1 := by unfold flExp; omega
      rw [he, zpow_add₀ two_ne_zero, zpow_one]
      ring
    rw [hexp]
    have h1 : ((2:ℕ):ℚ) ^ (Int.log 2 q) ≤ q := Int.zpow_log_le_self (by norm_num) hq
    have h2 : ((2:ℕ):ℚ) = (2:ℚ) := by norm_num
    rwa [h2] at h1
  linarith

theorem abs_fl_sub_le (q : ℚ) : |fl q - q| ≤ |q| / 2 ^ (53:ℤ) := by
  rcases lt_trichotomy q 0 with h | h | h
  · rw [fl_of_neg h, abs_of_neg h]
    have := abs_flPos_sub_le (q := -q) (by linarith)
    calc |-flPos (-q) - q| = |flPos (-q) - -q| := by rw [← abs_neg]; ring_nf
      _ ≤ -q / 2 ^ (53:ℤ) := this
  · simp [h, fl_zero]
  · rw [fl_of_pos h, abs_of_pos h]
    exact abs_flPos_sub_le h

/-- Numeral form of the relative error bound of one binary64 rounding. -/
theorem abs_fl_sub_le' (q : ℚ) : |fl q - q| ≤ |q| / 9007199254740992 := by
  have h := abs_fl_sub_le q
  have h2 : (2:ℚ) ^ (53:ℤ) = 9007199254740992 := by norm_num
  rw [h2] at h
  exact h

theorem flPos_nonneg {q : ℚ} (hq : 0 < q) : 0 ≤ flPos q := by
  unfold flPos
  have h1 : 0 ≤ rne (q / 2 ^ flExp q) :=
    rne_nonneg (le_of_lt (div_pos hq (two_zpow_pos _)))
  exact mul_nonneg (by exact_mod_cast h1) (le_of_lt (two_zpow_pos _))

theorem fl_nonneg {q : ℚ} (h : 0 ≤ q) : 0 ≤ fl q := by
  rcases eq_or_lt_of_le h with h0 | h0
  · rw [← h0, fl_zero]
  · rw [fl_of_pos h0]
    exact flPos_nonneg h0

theorem fl_neg (q : ℚ) : fl (-q) = -fl q := by
  rcases lt_trichotomy q 0 with h | h | h
  · rw [fl_of_neg h, fl_of_pos (by linarith), neg_neg]
  · rw [h]; rw [neg_zero, fl_zero, neg_zero]
  · rw [fl_of_pos h, fl_of_neg (by linarith), neg_neg]

theorem fl_nonpos {q : ℚ} (h : q ≤ 0) : fl q ≤ 0 := by
  have h1 : 0 ≤ fl (-q) := fl_nonneg (by linarith)
  rw [fl_neg] at h1
  linarith

theorem two_zpow_le_flPos {q : ℚ} (hq : 0 < q) : (2:ℚ) ^ Int.log 2 q ≤ flPos q := by
  set s := q / 2 ^ flExp q with hs
  have h1 : s - 1/2 ≤ (rne s : ℚ) := by
    have := abs_rne_sub_le s
    rw [abs_sub_le_iff] at this
    linarith [this.2]
  have h2 : (2:ℚ) ^ (52:ℤ) ≤ s := scaled_lb hq
  have h2' : (4503599627370496:ℚ) ≤ s := by
    have : (2:ℚ) ^ (52:ℤ) = 4503599627370496 := by norm_num
    linarith [this ▸ h2]
  have h3 : (4503599627370496 : ℤ) ≤ rne s := by
    by_contra hc
    push_neg at hc
    have hle : rne s ≤ 4503599627370495 := by omega
    have : (rne s : ℚ) ≤ (4503599627370495 : ℚ) := by exact_mod_cast hle
    linarith
  have h4 : (4503599627370496 : ℚ) * 2 ^ flExp q ≤ (rne s : ℚ) * 2 ^ flExp q := by
    have : (4503599627370496 : ℚ) ≤ (rne s : ℚ) := by exact_mod_cast h3
    exact mul_le_mul_of_nonneg_right this (le_of_lt (two_zpow_pos _))
  calc (2:ℚ) ^ Int.log 2 q = (2:ℚ) ^ (52:ℤ) * 2 ^ flExp q := by
        rw [← zpow_add₀ two_ne_zero]
        congr 1
        unfold flExp
        omega
    _ = (4503599627370496:ℚ) * 2 ^ flExp q := by norm_num
    _ ≤ (rne s : ℚ) * 2 ^ flExp q := h4
    _ = flPos q := rfl

theorem flPos_le_two_zpow {q : ℚ} (hq : 0 < q) : flPos q ≤ (2:ℚ) ^ (Int.log 2 q + 1) := by
  set s := q / 2 ^ flExp q with hs
  have h1 : (rne s : ℚ) ≤ s + 1/2 := by
    have := abs_rne_sub_le s
    rw [abs_sub_le_iff] at this
    linarith [this.1]
  have h2 : s < (2:ℚ) ^ (53:ℤ) := scaled_ub hq
  have h2' : s < (9007199254740992:ℚ) := by
    have : (2:ℚ) ^ (53:ℤ) = 9007199254740992 := by norm_num
    linarith [this ▸ h2]
  have h3 : rne s ≤ (9007199254740992 : ℤ) := by
    by_contra hc
    push_neg at hc
    have hle : (9007199254740993 : ℤ) ≤ rne s := by omega
    have : (9007199254740993 : ℚ) ≤ (rne s : ℚ) := by exact_mod_cast hle
    linarith
  have h4 : (rne s : ℚ) * 2 ^ flExp q ≤ (9007199254740992 : ℚ) * 2 ^ flExp q := by
    have : (rne s : ℚ) ≤ (9007199254740992 : ℚ) := by exact_mod_cast h3
    exact mul_le_mul_of_nonneg_right this (le_of_lt (two_zpow_pos _))
  calc flPos q = (rne s : ℚ) * 2 ^ flExp q := rfl
    _ ≤ (9007199254740992 : ℚ) * 2 ^ flExp q := h4
    _ = (2:ℚ) ^ (53:ℤ) * 2 ^ flExp q := by norm_num
    _ = (2:ℚ) ^ (Int.log 2 q + 1) := by
        rw [← zpow_add₀ two_ne_zero]
        congr 1
        unfold flExp
        omega

theorem flPos_mono {x y : ℚ} (hx : 0 < x) (hxy : x ≤ y) : flPos x ≤ flPos y := by
  have hy : 0 < y := lt_of_lt_of_le hx hxy
  have hL : Int.log 2 x ≤ Int.log 2 y := Int.log_mono_right hx hxy
  rcases eq_or_lt_of_le hL with hE | hlt
  · have hEe : flExp x = flExp y := by unfold flExp; omega
    have hs : x / 2 ^ flExp y ≤ y / 2 ^ flExp y := by
      gcongr
    have hr : (rne (x / 2 ^ flExp y) : ℚ) ≤ (rne (y / 2 ^ flExp y) : ℚ) := by
      exact_mod_cast rne_mono hs
    unfold flPos
    rw [hEe]
    exact mul_le_mul_of_nonneg_right hr (le_of_lt (two_zpow_pos _))
  · calc flPos x ≤ 2 ^ (Int.log 2 x + 1) := flPos_le_two_zpow hx
      _ ≤ (2:ℚ) ^ Int.log 2 y := zpow_le_zpow_right₀ (by norm_num) (by omega)
      _ ≤ flPos y := two_zpow_le_flPos hy

theorem fl_mono {x y : ℚ} (h : x ≤ y) : fl x ≤ fl y := by
  rcases lt_trichotomy x 0 with hx | hx | hx
  · rcases lt_trichotomy y 0 with hy | hy | hy
    · rw [fl_of_neg hx, fl_of_neg hy]
      have := flPos_mono (by linarith : (0:ℚ) < -y) (by linarith : -y ≤ -x)
      linarith
    · rw [hy, fl_zero]
      exact fl_nonpos (le_of_lt hx)
    · have h1 : fl x ≤ 0 := fl_nonpos (le_of_lt hx)
      have h2 : 0 ≤ fl y := fl_nonneg (le_of_lt hy)
      linarith
  · rw [hx, fl_zero]
    exact fl_nonneg (by linarith)
  · rw [fl_of_pos hx, fl_of_pos (by linarith)]
    exact flPos_mono hx h

/-- A rational is representable in binary64: an integer significand of at
most 53 bits times a power of two. -/
def Rep (q : ℚ) : Prop := ∃ m e : ℤ, q = (m : ℚ) * 2 ^ e ∧ |m| < 2 ^ 53

theorem flPos_eq_self_of_int {q : ℚ} (k : ℤ) (hk : q / 2 ^ flExp q = (k:ℚ)) :
    flPos q = q := by
  unfold flPos
  rw [hk, rne_intCast, ← hk, div_mul_cancel₀ q (two_zpow_ne_zero _)]

theorem flPos_of_rep {m e : ℤ} (hm : |m| < 2 ^ 53) (hq : 0 < (m:ℚ) * 2 ^ e) :
    flPos ((m:ℚ) * 2 ^ e) = (m:ℚ) * 2 ^ e := by
  set q : ℚ := (m:ℚ) * 2 ^ e with hqdef
  have hmq : (m:ℚ) < 2 ^ 53 := by
    have : m < 2 ^ 53 := lt_of_abs_lt hm
    exact_mod_cast this
  have hlt : q < ((2:ℕ):ℚ) ^ (e + 53) := by
    have h2 : ((2:ℕ):ℚ) = (2:ℚ) := by norm_num
    rw [h2]
    calc q < (2:ℚ) ^ (53:ℤ) * 2 ^ e := by
          have h53 : (2:ℚ) ^ (53:ℤ) = ((2:ℚ) ^ (53:ℕ)) := by norm_num
          rw [h53]
          exact mul_lt_mul_of_pos_right hmq (two_zpow_pos e)
      _ = (2:ℚ) ^ (e + 53) := by
          rw [← zpow_add₀ two_ne_zero]
          congr 1
          omega
  have hL : Int.log 2 q < e + 53 := (Int.lt_zpow_iff_log_lt (by norm_num) hq).1 hlt
  have hEe : flExp q ≤ e := by unfold flExp; omega
  set n : ℕ := (e - flExp q).toNat with hn
  have htn : (n : ℤ) = e - flExp q := Int.toNat_of_nonneg (by omega)
  refine flPos_eq_self_of_int (m * 2 ^ n) ?_
  have hz : ((m * 2 ^ n : ℤ) : ℚ) = (m:ℚ) * (2:ℚ) ^ (e - flExp q) := by
    push_cast
    rw [← zpow_natCast (2:ℚ) n, htn]
  rw [hz, hqdef, div_eq_iff (two_zpow_ne_zero _), mul_assoc, ← zpow_add₀ two_ne_zero]
  congr 2
  omega

theorem fl_of_rep {q : ℚ} (h : Rep q) : fl q = q := by
  obtain ⟨m, e, hq, hm⟩ := h
  rcases lt_trichotomy q 0 with h0 | h0 | h0
  · rw [fl_of_neg h0]
    have hq' : -q = ((-m : ℤ):ℚ) * 2 ^ e := by rw [hq]; push_cast; ring
    have hm' : |(-m : ℤ)| < 2 ^ 53 := by rwa [abs_neg]
    rw [hq', flPos_of_rep hm' (by rw [← hq']; linarith)]
    rw [← hq']
    ring
  · rw [h0, fl_zero]
  · rw [fl_of_pos h0, hq, flPos_of_rep hm (by rw [← hq]; exact h0)]

/-- Truncation toward zero: the semantics of Go's conversion of a float64
value to an integer type. -/
def rtrunc (q : ℚ) : ℤ := if q < 0 then ⌈q⌉ else ⌊q⌋

/-- Value of Go's `math.Mod (x, 1)`: `x` minus its integer part, carrying the
sign of `x`.  On binary64 inputs `math.Mod` is exact, so no rounding is
applied. -/
def mod1 (q : ℚ) : ℚ := q - rtrunc q

theorem rtrunc_intCast (n : ℤ) : rtrunc (n : ℚ) = n := by
  unfold rtrunc
  split_ifs <;> simp

theorem rtrunc_of_nonneg {q : ℚ} (h : 0 ≤ q) : rtrunc q = ⌊q⌋ := by
  unfold rtrunc
  rw [if_neg (by linarith)]

theorem rtrunc_le_self_of_nonneg {q : ℚ} (h : 0 ≤ q) : (rtrunc q : ℚ) ≤ q := by
  rw [rtrunc_of_nonneg h]
  exact Int.floor_le q

theorem abs_rtrunc_sub_lt (q : ℚ) : |(rtrunc q : ℚ) - q| < 1 := by
  unfold rtrunc
  split_ifs with h
  · rw [abs_sub_lt_iff]
    constructor <;> linarith [Int.le_ceil q, Int.ceil_lt_add_one q]
  · rw [abs_sub_lt_iff]
    constructor <;> linarith [Int.floor_le q, Int.lt_floor_add_one q]

theorem mod1_nonneg_lt_one {q : ℚ} (h : 0 ≤ q) : 0 ≤ mod1 q ∧ mod1 q < 1 := by
  unfold mod1
  rw [rtrunc_of_nonneg h]
  constructor
  · linarith [Int.floor_le q]
  · linarith [Int.lt_floor_add_one q]

end FP

namespace julian

/-- Number of seconds in a day (`day_seconds` in the source). -/
def day_seconds : ℚ := 86400

/-- Number of nanoseconds in a day (`day_nanoseconds` in the source). -/
def day_nanoseconds : ℚ := 86400000000000

/-- Julian date of the Unix epoch 1970-01-01T00:00:00 UTC (`julian_unix`). -/
def julian_unix : ℚ := 2440587.5

/-- Days per Julian century (`days_p_century`). -/
def days_p_century : ℚ := 36525

/-- Julian date of the J2000.0 epoch (`epoch_j2000`). -/
def epoch_j2000 : ℚ := 2451545

/-- Go type `Date float64`: a Julian date held in a binary64 value, embedded as
the rational it denotes. -/
abbrev Date : Type := ℚ

/-- Constructor `Time` returns a julian date version of the time.  The instant is
identified by its `UnixNano` value `t`; the source computes
`float64(t.UnixNano())/day_nanoseconds + julian_unix` in float64, so the
int64-to-float64 conversion, the division and the addition each round. -/
def Time (t : ℤ) : Date :=
  FP.fl (FP.fl (FP.fl (t : ℚ) / day_nanoseconds) + julian_unix)

/-- Modelled from the spec: the external calendar collaborator used by
`NewDate` (Go's `time.Date`, not part of this repository).  Out-of-range
month values roll into the year; out-of-range day, hour, minute, second and
nanosecond values roll into the higher-order field because each enters the
instant linearly, exactly the normalization the spec describes.  The result
is the `UnixNano` value of the instant denoted by the normalized fields in
the given fixed-offset location (offset in seconds east of UTC). -/
def daysFromCivil (y m d : ℤ) : ℤ :=
  let yn := y + (m - 1).fdiv 12
  let mn := (m - 1).emod 12 + 1
  let y2 := if mn ≤ 2 then yn - 1 else yn
  let era := y2.fdiv 400
  let yoe := y2 - era * 400
  let mp := (mn + 9).emod 12
  let doy := (153 * mp + 2).fdiv 5 + d - 1
  let doe := yoe * 365 + yoe.fdiv 4 - yoe.fdiv 100 + doy
  era * 146097 + doe - 719468

/-- Modelled from the spec: `time.Date(year, month, day, hour, minute, sec,
nsec, loc)`.  A `none` location is the nil location, on which the real
collaborator signals a caller contract violation, embedded as a `none`
result; otherwise the call always produces the instant of the normalized
fields. -/
def timeDate (year month day hour minute sec nsec : ℤ) (loc : Option ℤ) : Option ℤ :=
  loc.map fun off =>
    (daysFromCivil year month day * 86400 + hour * 3600 + minute * 60 + sec - off)
      * 1000000000 + nsec

/-- Constructor `NewDate` returns the julian date of yyyy-mm-dd hh:mm:ss + nsec
nanoseconds in the given location: it builds the instant with the calendar
collaborator and applies the same float64 conversion as `Time`.  The `none`
result embeds the collaborator's contract violation on a nil location. -/
def NewDate (year month day hour minute sec nsec : ℤ) (loc : Option ℤ) : Option Date :=
  (timeDate year month day hour minute sec nsec loc).map fun n =>
    FP.fl (FP.fl (FP.fl (n : ℚ) / day_nanoseconds) + julian_unix)

/-- Instant built by Go's `time.Unix(sec, nsec)`, identified by its
`UnixNano` value. -/
def timeUnix (sec nsec : ℤ) : ℤ := sec * 1000000000 + nsec

/-- Method `UnixNano` returns the julian date as a Unix time in nanoseconds:
`int64((jd - julian_unix) * day_nanoseconds)`, where the subtraction and the
multiplication round in float64 and the conversion truncates toward zero. -/
def Date.UnixNano (jd : Date) : ℤ :=
  FP.rtrunc (FP.fl (FP.fl (jd - julian_unix) * day_nanoseconds))

/-- Method `Gregorian` returns the civil time of the julian date:
`time.Unix(0, jd.UnixNano())`, an instant identified by its `UnixNano`
value. -/
def Date.Gregorian (jd : Date) : ℤ := timeUnix 0 (Date.UnixNano jd)

/-- Method `Unix` returns the Unix time in seconds:
`int64((jd - julian_unix) * day_seconds)`. -/
def Date.Unix (jd : Date) : ℤ :=
  FP.rtrunc (FP.fl (FP.fl (jd - julian_unix) * day_seconds))

/-- Method `Time` returns the time fraction `math.Mod(float64(jd), 1)`. -/
def Date.Time (jd : Date) : ℚ := FP.mod1 jd

/-- Method `Day` returns the float64 representation of the Julian day. -/
def Date.Day (jd : Date) : ℚ := jd

/-- Method `DayNumber` returns `int(jd)`: the conversion truncates toward zero. -/
def Date.DayNumber (jd : Date) : ℤ := FP.rtrunc jd

/-- Method `Century` returns the Julian century
`float64(jd - epoch_j2000) / days_p_century`, where the subtraction and the
division round in float64. -/
def Date.Century (jd : Date) : ℚ :=
  FP.fl (FP.fl (jd - epoch_j2000) / days_p_century)

end julian

namespace legacy

/-- Go type `Julian float64`: the legacy near-duplicate of `julian.Date`. -/
abbrev Julian : Type := ℚ

/-- Legacy constant `seconds`. -/
def seconds : ℚ := 86400

/-- Legacy constant `nanoseconds`. -/
def nanoseconds : ℚ := 86400000000000

/-- Legacy constant `julian_unix`. -/
def julian_unix : ℚ := 2440587.5

/-- Legacy constant `days_p_century`. -/
def days_p_century : ℚ := 36525

/-- Legacy constant `epoch_j2000`. -/
def epoch_j2000 : ℚ := 2451545

/-- Legacy package-level `Time`. -/
def Time (t : ℤ) : Julian :=
  FP.fl (FP.fl (FP.fl (t : ℚ) / nanoseconds) + julian_unix)

/-- Legacy package-level `Date` constructor (the analogue of `NewDate`),
calling the same calendar collaborator. -/
def Date (year month day hour minute sec nsec : ℤ) (loc : Option ℤ) : Option Julian :=
  (julian.timeDate year month day hour minute sec nsec loc).map fun n =>
    FP.fl (FP.fl (FP.fl (n : ℚ) / nanoseconds) + julian_unix)

/-- Legacy `UnixNano` method. -/
def Julian.UnixNano (j : Julian) : ℤ :=
  FP.rtrunc (FP.fl (FP.fl (j - julian_unix) * nanoseconds))

/-- Legacy `Gregorian` method. -/
def Julian.Gregorian (j : Julian) : ℤ := julian.timeUnix 0 (Julian.UnixNano j)

/-- Legacy `Unix` method. -/
def Julian.Unix (j : Julian) : ℤ :=
  FP.rtrunc (FP.fl (FP.fl (j - julian_unix) * seconds))

/-- Legacy `Time` method (time fraction). -/
def Julian.Time (j : Julian) : ℚ := FP.mod1 j

/-- Legacy `Day` method. -/
def Julian.Day (j : Julian) : ℚ := j

/-- Legacy `DayNumber` method. -/
def Julian.DayNumber (j : Julian) : ℤ := FP.rtrunc j

/-- Legacy `Century` method. -/
def Julian.Century (j : Julian) : ℚ :=
  FP.fl (FP.fl (j - epoch_j2000) / days_p_century)

end legacy

namespace FP

theorem rep_intCast {k : ℤ} (h : |k| < 2 ^ 53) : Rep (k : ℚ) :=
  ⟨k, 0, by rw [zpow_zero, mul_one], h⟩

theorem abs_rtrunc_le (q : ℚ) : |(rtrunc q : ℚ)| ≤ |q| := by
  unfold rtrunc
  split_ifs with h
  · have h1 : q ≤ (⌈q⌉:ℚ) := Int.le_ceil q
    have h2 : (⌈q⌉:ℚ) ≤ 0 := by
      have : ⌈q⌉ ≤ (0:ℤ) := Int.ceil_le.2 (by exact_mod_cast le_of_lt h)
      exact_mod_cast this
    rw [abs_of_nonpos h2, abs_of_nonpos (le_of_lt h)]
    linarith
  · push_neg at h
    have h1 : (0:ℚ) ≤ (⌊q⌋:ℚ) := by
      have : 0 ≤ ⌊q⌋ := Int.floor_nonneg.2 h
      exact_mod_cast this
    rw [abs_of_nonneg h1, abs_of_nonneg h]
    exact Int.floor_le q

/-- A representable value is an integer or has magnitude below `2 ^ 53`. -/
theorem rep_int_or_small {q : ℚ} (h : Rep q) :
    q = ((rtrunc q : ℤ) : ℚ) ∨ |q| < 9007199254740992 := by
  obtain ⟨m, e, hq, hm⟩ := h
  rcases le_or_lt 0 e with he | he
  · left
    have hk : q = ((m * 2 ^ e.toNat : ℤ) : ℚ) := by
      rw [hq]
      push_cast
      rw [← zpow_natCast (2:ℚ) e.toNat, Int.toNat_of_nonneg he]
    rw [hk, rtrunc_intCast]
  · right
    have h1 : |q| = |(m:ℚ)| * 2 ^ e := by
      rw [hq, abs_mul, abs_of_pos (two_zpow_pos e)]
    have h2 : (2:ℚ) ^ e ≤ 2 ^ (-1:ℤ) := zpow_le_zpow_right₀ (by norm_num) (by omega)
    have h3 : |(m:ℚ)| < 9007199254740992 := by
      rw [← Int.cast_abs]
      have : |m| < 9007199254740992 := by
        have h4 : (2:ℤ) ^ 53 = 9007199254740992 := by norm_num
        omega
      exact_mod_cast this
    have h4 : (2:ℚ) ^ (-1:ℤ) = 1/2 := by norm_num
    have h5 : (0:ℚ) ≤ |(m:ℚ)| := abs_nonneg _
    calc |q| = |(m:ℚ)| * 2 ^ e := h1
      _ ≤ |(m:ℚ)| * (1/2) := by
          rw [← h4]
          exact mul_le_mul_of_nonneg_left h2 h5
      _ < 9007199254740992 := by linarith

/-- Truncating a representable value gives an exactly representable integer:
converting it back to binary64 is exact. -/
theorem fl_rtrunc_of_rep {q : ℚ} (h : Rep q) :
    fl ((rtrunc q : ℤ) : ℚ) = ((rtrunc q : ℤ) : ℚ) := by
  rcases rep_int_or_small h with hc | hc
  · rw [← hc]
    exact fl_of_rep h
  · apply fl_of_rep
    apply rep_intCast
    have h1 : |(rtrunc q : ℚ)| ≤ |q| := abs_rtrunc_le q
    have h2 : |(rtrunc q : ℚ)| < 9007199254740992 := lt_of_le_of_lt h1 hc
    have h3 : ((2:ℤ) ^ 53 : ℤ) = 9007199254740992 := by norm_num
    rw [h3, ← Int.cast_abs] at *
    exact_mod_cast h2

end FP

/-- Shared computation: the Julian date of the Unix epoch is exactly
representable, so `fl` leaves it unchanged. -/
theorem fl_julian_unix_eq : FP.fl (2440587.5 : ℚ) = 2440587.5 :=
  FP.fl_of_rep ⟨4881175, -1, by norm_num, by norm_num⟩

/-- Shared computation: the instant 0 maps to the Julian date of the Unix
epoch exactly. -/
theorem time_zero_eq : julian.Time 0 = 2440587.5 := by
  unfold julian.Time julian.day_nanoseconds julian.julian_unix
  rw [Int.cast_zero, FP.fl_zero, zero_div, FP.fl_zero, zero_add]
  exact fl_julian_unix_eq

/-- Shared computation: adding a nonnegative increment below half an ulp of
2440587.5 (whose ulp is 2^-31) is absorbed by the binary64 rounding. -/
theorem fl_absorb_at_julian_unix {v : ℚ} (h0 : 0 ≤ v) (h1 : v < 1/4294967296) :
    FP.fl ((2440587.5 : ℚ) + v) = 2440587.5 := by
  have hqpos : (0:ℚ) < 2440587.5 + v := by linarith
  have hlog : Int.log 2 ((2440587.5:ℚ) + v) = 21 := by
    have hlb : ((2:ℕ):ℚ) ^ (21:ℤ) ≤ (2440587.5:ℚ) + v := by
      have h : ((2:ℕ):ℚ) ^ (21:ℤ) = 2097152 := by norm_num
      rw [h]
      linarith
    have hub : (2440587.5:ℚ) + v < ((2:ℕ):ℚ) ^ (22:ℤ) := by
      have h : ((2:ℕ):ℚ) ^ (22:ℤ) = 4194304 := by norm_num
      rw [h]
      linarith
    have e1 : (21:ℤ) ≤ Int.log 2 ((2440587.5:ℚ) + v) :=
      (Int.zpow_le_iff_le_log (by norm_num) hqpos).1 hlb
    have e2 : Int.log 2 ((2440587.5:ℚ) + v) < 22 :=
      (Int.lt_zpow_iff_log_lt (by norm_num) hqpos).1 hub
    omega
  rw [FP.fl_of_pos hqpos]
  unfold FP.flPos FP.flExp
  rw [hlog]
  have hE : (21:ℤ) - 52 = -31 := by norm_num
  rw [hE]
  have hp : (2:ℚ) ^ (-31:ℤ) = 1/2147483648 := by norm_num
  have hdiv : ((2440587.5:ℚ) + v) / 2 ^ (-31:ℤ)
      = ((5241121747763200:ℤ):ℚ) + v * 2147483648 := by
    rw [hp, div_eq_iff (by norm_num : ((1:ℚ)/2147483648) ≠ 0)]
    push_cast
    ring_nf
  have hhalf : v * 2147483648 < 1/2 := by linarith
  rw [hdiv, FP.rne_int_add_lt_half (by positivity) hhalf, hp]
  push_cast
  norm_num

/-- Shared computation: the instant 1 (one nanosecond after the Unix epoch)
also maps to the Julian date 2440587.5: the quotient 1/day_nanoseconds is
absorbed when added to 2440587.5. -/
theorem time_one_eq : julian.Time 1 = 2440587.5 := by
  unfold julian.Time julian.day_nanoseconds julian.julian_unix
  rw [Int.cast_one]
  have hfl1 : FP.fl (1:ℚ) = 1 := FP.fl_of_rep ⟨1, 0, by norm_num, by norm_num⟩
  rw [hfl1]
  set v := FP.fl (1 / 86400000000000 : ℚ) with hv
  have hv0 : 0 ≤ v := FP.fl_nonneg (by norm_num)
  have hverr : |v - 1/86400000000000| ≤ |(1/86400000000000 : ℚ)| / 9007199254740992 :=
    FP.abs_fl_sub_le' _
  have habs : |(1/86400000000000 : ℚ)| = 1/86400000000000 := by norm_num
  rw [habs, abs_sub_le_iff] at hverr
  have hv1 : v < 1/4294967296 := by linarith [hverr.1]
  rw [add_comm v (2440587.5:ℚ)]
  exact fl_absorb_at_julian_unix hv0 hv1

/-- C2: applying the `Time` constructor to the Unix epoch instant
(`UnixNano() == 0`) returns the Julian date 2440587.5 exactly, every
float64 operation involved being exact there. -/
theorem time_unix_epoch_exact : julian.Time 0 = 2440587.5 :=
  time_zero_eq

/-- C4 counterexample: the instants 0 and 1 nanosecond since the Unix epoch
are strictly ordered, but both map to the Julian date 2440587.5: one
nanosecond is far below the resolution of a binary64 Julian date near
2440587.5, so the conversion is not strictly monotone. -/
theorem time_not_strictly_mono :
    (0:ℤ) < 1 ∧ ¬ (julian.Time 0 < julian.Time 1) := by
  refine ⟨by norm_num, ?_⟩
  rw [time_zero_eq, time_one_eq]
  exact lt_irrefl _

/-- C4 amended: the instant-to-Julian-date conversion is weakly monotone:
`a ≤ b` implies `Time(a) ≤ Time(b)`.  Strictness fails for instants closer
than the binary64 resolution (about 40 microseconds at current dates), as
every rounding step is merely monotone. -/
theorem time_mono (a b : ℤ) (h : a ≤ b) : julian.Time a ≤ julian.Time b := by
  have h1 : FP.fl (a:ℚ) ≤ FP.fl (b:ℚ) := FP.fl_mono (by exact_mod_cast h)
  have h2 : FP.fl (a:ℚ) / julian.day_nanoseconds
      ≤ FP.fl (b:ℚ) / julian.day_nanoseconds := by
    have hD : (0:ℚ) < julian.day_nanoseconds := by
      unfold julian.day_nanoseconds
      norm_num
    gcongr
  have h3 := FP.fl_mono h2
  have h4 : FP.fl (FP.fl (a:ℚ) / julian.day_nanoseconds) + julian.julian_unix
      ≤ FP.fl (FP.fl (b:ℚ) / julian.day_nanoseconds) + julian.julian_unix := by
    linarith
  unfold julian.Time
  exact FP.fl_mono h4

/-- C4 amended, witness at the instants 0 and 1. -/
theorem time_mono_witness : julian.Time 0 ≤ julian.Time 1 :=
  time_mono 0 1 (by norm_num)

/-- C1: for every instant in the safe int64 nanosecond range
(|UnixNano| ≤ 2^63, years ~1678 to ~2262), converting to a Julian date with
`Time` and back with `Gregorian` yields an instant within 50 microseconds
(50000 ns) of the original: the accumulated error of the five float64
roundings and the final truncation stays below 34 microseconds. -/
theorem time_gregorian_roundtrip (x : ℤ) (hx : |x| ≤ 2 ^ 63) :
    |julian.Date.Gregorian (julian.Time x) - x| ≤ 50000 := by
  have hxq : |(x:ℚ)| ≤ 9223372036854775808 := by
    rw [← Int.cast_abs]
    have h : |x| ≤ 9223372036854775808 := by
      have h2 : (2:ℤ) ^ 63 = 9223372036854775808 := by norm_num
      omega
    exact_mod_cast h
  unfold julian.Date.Gregorian julian.timeUnix julian.Date.UnixNano julian.Time
    julian.day_nanoseconds julian.julian_unix
  rw [zero_mul, zero_add]
  set a := FP.fl ((x:ℚ)) with ha
  set b := FP.fl (a / 86400000000000) with hb
  set c := FP.fl (b + 2440587.5) with hc
  set d := FP.fl (c - 2440587.5) with hd
  set e := FP.fl (d * 86400000000000) with he
  have h1 : |a - (x:ℚ)| ≤ 1024 := by
    have hh := FP.abs_fl_sub_le' (x:ℚ)
    rw [← ha] at hh
    have h2 : |(x:ℚ)| / 9007199254740992 ≤ 1024 := by
      rw [div_le_iff (by norm_num : (0:ℚ) < 9007199254740992)]
      linarith
    linarith
  have ha_abs : |a| ≤ 9223372036854776832 := by
    calc |a| = |(x:ℚ) + (a - (x:ℚ))| := by congr 1; ring
      _ ≤ |(x:ℚ)| + |a - (x:ℚ)| := abs_add _ _
      _ ≤ 9223372036854776832 := by linarith
  have hq1 : |a / 86400000000000| ≤ 106752 := by
    rw [abs_div, abs_of_pos (by norm_num : (0:ℚ) < 86400000000000)]
    rw [div_le_iff (by norm_num : (0:ℚ) < 86400000000000)]
    linarith
  have h2 : |b - a / 86400000000000| ≤ 1/68719476736 := by
    have hh := FP.abs_fl_sub_le' (a / 86400000000000)
    rw [← hb] at hh
    have h3 : |a / 86400000000000| / 9007199254740992 ≤ 1/68719476736 := by
      rw [div_le_div_iff (by norm_num) (by norm_num)]
      linarith
    linarith
  have hb_abs : |b| ≤ 106753 := by
    calc |b| = |a / 86400000000000 + (b - a / 86400000000000)| := by congr 1; ring
      _ ≤ |a / 86400000000000| + |b - a / 86400000000000| := abs_add _ _
      _ ≤ 106753 := by linarith
  have hbju : |b + 2440587.5| ≤ 2547341 := by
    calc |b + 2440587.5| ≤ |b| + |(2440587.5:ℚ)| := abs_add _ _
      _ ≤ 106753 + 2440587.5 := by
          have : |(2440587.5:ℚ)| = 2440587.5 := by norm_num
          linarith
      _ ≤ 2547341 := by norm_num
  have h3 : |c - (b + 2440587.5)| ≤ 1/3000000000 := by
    have hh := FP.abs_fl_sub_le' (b + 2440587.5)
    rw [← hc] at hh
    have h4 : |b + 2440587.5| / 9007199254740992 ≤ 1/3000000000 := by
      rw [div_le_div_iff (by norm_num) (by norm_num)]
      linarith
    linarith
  have hcju : |c - 2440587.5 - b| ≤ 1/3000000000 := by
    have hr : c - 2440587.5 - b = c - (b + 2440587.5) := by ring
    rw [hr]
    exact h3
  have hd0_abs : |c - 2440587.5| ≤ 106754 := by
    calc |c - 2440587.5| = |b + (c - 2440587.5 - b)| := by congr 1; ring
      _ ≤ |b| + |c - 2440587.5 - b| := abs_add _ _
      _ ≤ 106754 := by linarith
  have h4 : |d - (c - 2440587.5)| ≤ 1/84000000000 := by
    have hh := FP.abs_fl_sub_le' (c - 2440587.5)
    rw [← hd] at hh
    have h5 : |c - 2440587.5| / 9007199254740992 ≤ 1/84000000000 := by
      rw [div_le_div_iff (by norm_num) (by norm_num)]
      linarith
    linarith
  have hd_abs : |d| ≤ 106755 := by
    calc |d| = |(c - 2440587.5) + (d - (c - 2440587.5))| := by congr 1; ring
      _ ≤ |c - 2440587.5| + |d - (c - 2440587.5)| := abs_add _ _
      _ ≤ 106755 := by linarith
  have h5 : |e - d * 86400000000000| ≤ 1025 := by
    have hh := FP.abs_fl_sub_le' (d * 86400000000000)
    rw [← he] at hh
    have h6 : |d * 86400000000000| ≤ 9223632000000000000 := by
      rw [abs_mul, abs_of_pos (by norm_num : (0:ℚ) < 86400000000000)]
      linarith
    have h7 : |d * 86400000000000| / 9007199254740992 ≤ 1025 := by
      rw [div_le_iff (by norm_num : (0:ℚ) < 9007199254740992)]
      linarith
    linarith
  have h6 : |(FP.rtrunc e : ℚ) - e| ≤ 1 := by
    have hh := FP.abs_rtrunc_sub_lt e
    linarith
  have hm1 : |d * 86400000000000 - (c - 2440587.5) * 86400000000000|
      ≤ 86400000000000/84000000000 := by
    rw [← sub_mul, abs_mul, abs_of_pos (by norm_num : (0:ℚ) < 86400000000000)]
    calc |d - (c - 2440587.5)| * 86400000000000
        ≤ (1/84000000000) * 86400000000000 :=
          mul_le_mul_of_nonneg_right h4 (by norm_num)
      _ = 86400000000000/84000000000 := by ring
  have hm2 : |(c - 2440587.5) * 86400000000000 - b * 86400000000000| ≤ 28800 := by
    rw [← sub_mul, abs_mul, abs_of_pos (by norm_num : (0:ℚ) < 86400000000000)]
    calc |c - 2440587.5 - b| * 86400000000000
        ≤ (1/3000000000) * 86400000000000 :=
          mul_le_mul_of_nonneg_right hcju (by norm_num)
      _ = 28800 := by norm_num
  have hm3 : |b * 86400000000000 - a| ≤ 86400000000000/68719476736 := by
    have hr : b * 86400000000000 - a = (b - a / 86400000000000) * 86400000000000 := by
      rw [sub_mul, div_mul_cancel₀ a (by norm_num : (86400000000000:ℚ) ≠ 0)]
    rw [hr, abs_mul, abs_of_pos (by norm_num : (0:ℚ) < 86400000000000)]
    calc |b - a / 86400000000000| * 86400000000000
        ≤ (1/68719476736) * 86400000000000 :=
          mul_le_mul_of_nonneg_right h2 (by norm_num)
      _ = 86400000000000/68719476736 := by ring
  have hfinal : |(FP.rtrunc e : ℚ) - (x:ℚ)| ≤ 50000 := by
    have t1 : (FP.rtrunc e : ℚ) - (x:ℚ)
        = ((FP.rtrunc e : ℚ) - e) + (e - d * 86400000000000)
          + (d * 86400000000000 - (c - 2440587.5) * 86400000000000)
          + ((c - 2440587.5) * 86400000000000 - b * 86400000000000)
          + (b * 86400000000000 - a) + (a - (x:ℚ)) := by ring
    rw [abs_le] at h1 h5 h6 hm1 hm2 hm3
    rw [abs_le, t1]
    constructor
    · linarith
    · linarith
  rw [← Int.cast_sub, ← Int.cast_abs] at hfinal
  exact_mod_cast hfinal

/-- C1 witness at the Unix epoch instant 0. -/
theorem time_gregorian_roundtrip_witness :
    |julian.Date.Gregorian (julian.Time 0) - 0| ≤ 50000 :=
  time_gregorian_roundtrip 0 (by norm_num)

/-- C3 counterexample: at the negative Julian date -1/2 the day-fraction
accessor (`Date.Time`, computing `math.Mod(jd, 1)`) returns -1/2, which is
negative: the claimed range `0 ≤ f < 1` fails for negative `jd`. -/
theorem dateTime_neg_at_neg_half :
    ¬ (0 ≤ julian.Date.Time (-(1/2) : ℚ) ∧ julian.Date.Time (-(1/2) : ℚ) < 1) := by
  have h : julian.Date.Time (-(1/2) : ℚ) = -(1/2) := by
    unfold julian.Date.Time FP.mod1 FP.rtrunc
    rw [if_pos (by norm_num)]
    norm_num
  rw [h]
  intro hc
  have := hc.1
  norm_num at this

/-- C3 amended: for every nonnegative Julian date `jd` the day-fraction
accessor returns a value `f` with `0 ≤ f < 1` (`math.Mod(jd, 1)` carries the
sign of `jd`, so nonnegativity of `jd` is required). -/
theorem dateTime_range_of_nonneg (jd : ℚ) (h : 0 ≤ jd) :
    0 ≤ julian.Date.Time jd ∧ julian.Date.Time jd < 1 :=
  FP.mod1_nonneg_lt_one h

/-- C3 amended, witness at jd = 5/2. -/
theorem dateTime_range_witness :
    0 ≤ julian.Date.Time (5/2 : ℚ) ∧ julian.Date.Time (5/2 : ℚ) < 1 :=
  dateTime_range_of_nonneg (5/2) (by norm_num)

/-- C6 counterexample: at the Julian date -1/2 the `DayNumber` accessor
(`int(jd)`, truncation toward zero) returns 0, while the floor is -1; in
particular `DayNumber(jd) ≤ jd` fails there. -/
theorem dayNumber_not_floor_at_neg_half :
    julian.Date.DayNumber (-(1/2) : ℚ) = 0 ∧ ⌊(-(1/2) : ℚ)⌋ = -1 ∧
      ¬ ((julian.Date.DayNumber (-(1/2) : ℚ) : ℚ) ≤ -(1/2)) := by
  have h : julian.Date.DayNumber (-(1/2) : ℚ) = 0 := by
    unfold julian.Date.DayNumber FP.rtrunc
    rw [if_pos (by norm_num)]
    norm_num
  refine ⟨h, by norm_num, ?_⟩
  rw [h]
  norm_num

/-- C6 amended: `DayNumber` truncates toward zero, which agrees with the
floor exactly on nonnegative Julian dates; there `DayNumber(jd) ≤ jd`
holds. -/
theorem dayNumber_floor_of_nonneg (jd : ℚ) (h : 0 ≤ jd) :
    julian.Date.DayNumber jd = ⌊jd⌋ ∧ (julian.Date.DayNumber jd : ℚ) ≤ jd := by
  constructor
  · exact FP.rtrunc_of_nonneg h
  · exact FP.rtrunc_le_self_of_nonneg h

/-- C6 amended, witness at jd = 5/2. -/
theorem dayNumber_floor_witness :
    julian.Date.DayNumber (5/2 : ℚ) = ⌊(5/2 : ℚ)⌋ ∧
      (julian.Date.DayNumber (5/2 : ℚ) : ℚ) ≤ 5/2 :=
  dayNumber_floor_of_nonneg (5/2) (by norm_num)

/-- C5 counterexample: at the representable Julian date 2440587.5 - 2^-17
(one 2^-17 day, about 0.66 s, before the Unix epoch) every float64 operation
in `Unix` is exact, the product (jd - 2440587.5)*86400 equals -675/1024, and
the accessor returns its truncation 0, not its floor -1 as claimed. -/
theorem unix_not_floor_before_epoch :
    julian.Date.Unix (2440587.5 - 1/131072 : ℚ) = 0 ∧
      ⌊((2440587.5 - 1/131072 : ℚ) - 2440587.5) * 86400⌋ = -1 := by
  constructor
  · unfold julian.Date.Unix julian.julian_unix julian.day_seconds
    have h1 : (2440587.5 - 1/131072 : ℚ) - 2440587.5 = -(1/131072) := by norm_num
    have hfl1 : FP.fl (-(1/131072) : ℚ) = -(1/131072) :=
      FP.fl_of_rep ⟨-1, -17, by norm_num, by norm_num⟩
    rw [h1, hfl1]
    have h2 : (-(1/131072) : ℚ) * 86400 = -(675/1024) := by norm_num
    have hfl2 : FP.fl (-(675/1024) : ℚ) = -(675/1024) :=
      FP.fl_of_rep ⟨-675, -10, by norm_num, by norm_num⟩
    rw [h2, hfl2]
    unfold FP.rtrunc
    rw [if_pos (by norm_num)]
    norm_num
  · norm_num

/-- C5 amended: `Unix` returns the truncation toward zero of the float64
evaluation of `(jd - 2440587.5) * 86400`; for `jd ≥ 2440587.5` (instants at
or after the Unix epoch) this coincides with the floor. -/
theorem unix_floor_of_ge_epoch (jd : ℚ) (h : (2440587.5:ℚ) ≤ jd) :
    julian.Date.Unix jd =
      ⌊FP.fl (FP.fl (jd - julian.julian_unix) * julian.day_seconds)⌋ := by
  unfold julian.Date.Unix
  apply FP.rtrunc_of_nonneg
  apply FP.fl_nonneg
  apply mul_nonneg
  · apply FP.fl_nonneg
    have : julian.julian_unix = (2440587.5:ℚ) := rfl
    linarith
  · unfold julian.day_seconds
    norm_num

/-- C5 amended, witness at jd = 2440588.5. -/
theorem unix_floor_witness :
    julian.Date.Unix (2440588.5 : ℚ) =
      ⌊FP.fl (FP.fl ((2440588.5:ℚ) - julian.julian_unix) * julian.day_seconds)⌋ :=
  unix_floor_of_ge_epoch 2440588.5 (by norm_num)

/-- C9: the legacy `Julian` type and the current `Date` type implement
identical logic: the constructor from an instant, the calendar-field
constructor, and the `Gregorian`, `Unix`, `UnixNano`, time-fraction, `Day`,
`DayNumber` and `Century` operations agree on every input. -/
theorem legacy_julian_equiv_date :
    (∀ t : ℤ, legacy.Time t = julian.Time t) ∧
    (∀ year month day hour minute sec nsec : ℤ, ∀ loc : Option ℤ,
      legacy.Date year month day hour minute sec nsec loc
        = julian.NewDate year month day hour minute sec nsec loc) ∧
    (∀ j : ℚ, legacy.Julian.Gregorian j = julian.Date.Gregorian j) ∧
    (∀ j : ℚ, legacy.Julian.Unix j = julian.Date.Unix j) ∧
    (∀ j : ℚ, legacy.Julian.UnixNano j = julian.Date.UnixNano j) ∧
    (∀ j : ℚ, legacy.Julian.Time j = julian.Date.Time j) ∧
    (∀ j : ℚ, legacy.Julian.Day j = julian.Date.Day j) ∧
    (∀ j : ℚ, legacy.Julian.DayNumber j = julian.Date.DayNumber j) ∧
    (∀ j : ℚ, legacy.Julian.Century j = julian.Date.Century j) :=
  ⟨fun _ => rfl, fun _ _ _ _ _ _ _ _ => rfl, fun _ => rfl, fun _ => rfl,
   fun _ => rfl, fun _ => rfl, fun _ => rfl, fun _ => rfl, fun _ => rfl⟩

/-- C7: `NewDate` signals the contract violation (the collaborator's nil
check, a Go panic) exactly when the location is nil, and for every other
input it completes; out-of-range calendar fields are normalized by rolling
into higher-order fields, e.g. October 32 yields the same Julian date as
November 1. -/
theorem newDate_nil_iff_and_normalizes :
    (∀ year month day hour minute sec nsec : ℤ, ∀ loc : Option ℤ,
      (julian.NewDate year month day hour minute sec nsec loc = none ↔ loc = none)) ∧
    julian.NewDate 2011 10 32 0 0 0 0 (some 0)
      = julian.NewDate 2011 11 1 0 0 0 0 (some 0) := by
  constructor
  · intro year month day hour minute sec nsec loc
    cases loc <;> simp [julian.NewDate, julian.timeDate]
  · have ht : julian.timeDate 2011 10 32 0 0 0 0 (some 0)
        = julian.timeDate 2011 11 1 0 0 0 0 (some 0) := by decide
    unfold julian.NewDate
    rw [ht]

/-- C8: `Century` applied to the J2000.0 epoch value 2451545.0 returns
exactly 0.0, and for every Julian date the result is the float64 evaluation
of `(jd - 2451545.0) / 36525.0`, within the relative rounding error of the
two float64 operations involved (each bounded by 2^-53). -/
theorem century_j2000_and_formula :
    julian.Date.Century 2451545 = 0 ∧
    ∀ jd : ℚ, |julian.Date.Century jd - (jd - 2451545) / 36525| ≤
      3 * |(jd - 2451545) / 36525| / 9007199254740992 := by
  constructor
  · unfold julian.Date.Century julian.epoch_j2000 julian.days_p_century
    rw [sub_self, FP.fl_zero, zero_div, FP.fl_zero]
  · intro jd
    unfold julian.Date.Century julian.epoch_j2000 julian.days_p_century
    set t := jd - (2451545:ℚ) with ht
    set s1 := FP.fl t with hs1
    have h1 : |s1 - t| ≤ |t| / 9007199254740992 := FP.abs_fl_sub_le' t
    have hs1abs : |s1| ≤ |t| + |t| / 9007199254740992 := by
      calc |s1| = |t + (s1 - t)| := by ring_nf
        _ ≤ |t| + |s1 - t| := abs_add t (s1 - t)
        _ ≤ |t| + |t| / 9007199254740992 := by linarith
    have h2 : |FP.fl (s1 / 36525) - s1 / 36525| ≤ |s1 / 36525| / 9007199254740992 :=
      FP.abs_fl_sub_le' (s1 / 36525)
    have h3 : |s1 / 36525| = |s1| / 36525 := by
      rw [abs_div]
      norm_num
    have h4 : |s1 / 36525 - t / 36525| = |s1 - t| / 36525 := by
      rw [div_sub_div_same, abs_div]
      norm_num
    have h5 : |(jd - 2451545) / 36525| = |t| / 36525 := by
      rw [← ht, abs_div]
      norm_num
    have habs : 0 ≤ |t| := abs_nonneg t
    calc |FP.fl (s1 / 36525) - (jd - 2451545) / 36525|
        = |(FP.fl (s1 / 36525) - s1 / 36525) + (s1 / 36525 - t / 36525)| := by
          rw [← ht]
          ring_nf
      _ ≤ |FP.fl (s1 / 36525) - s1 / 36525| + |s1 / 36525 - t / 36525| :=
          abs_add _ _
      _ ≤ |s1| / 36525 / 9007199254740992 + |s1 - t| / 36525 := by
          rw [h4, ← h3]
          linarith
      _ ≤ 3 * |(jd - 2451545) / 36525| / 9007199254740992 := by
          rw [h5]
          have hb1 : |s1| / 36525 / 9007199254740992
              ≤ (|t| + |t| / 9007199254740992) / 36525 / 9007199254740992 := by
            gcongr
          have hb2 : |s1 - t| / 36525 ≤ (|t| / 9007199254740992) / 36525 := by
            gcongr
          have hb3 : |t| / 9007199254740992 ≤ |t| := by
            linarith [div_le_self habs (by norm_num : (1:ℚ) ≤ 9007199254740992)]
          linarith

/-- C10: on every binary64 Julian date whose truncation is representable in
the 64-bit int type, `float64(DayNumber(jd)) + Time(jd)`, evaluated in
float64, reconstructs `Day(jd)` exactly: the int conversion and
`math.Mod(jd, 1)` truncate toward zero, and both the integer part and the
recombined sum are exactly representable. -/
theorem day_decomposition (jd : ℚ) (h1 : FP.Rep jd) (_h2 : |jd| ≤ 2 ^ 63) :
    FP.fl (FP.fl ((julian.Date.DayNumber jd : ℤ) : ℚ) + julian.Date.Time jd)
      = julian.Date.Day jd := by
  unfold julian.Date.DayNumber julian.Date.Time julian.Date.Day FP.mod1
  rw [FP.fl_rtrunc_of_rep h1]
  have hsum : ((FP.rtrunc jd : ℤ) : ℚ) + (jd - (FP.rtrunc jd : ℤ)) = jd := by ring
  rw [hsum]
  exact FP.fl_of_rep h1

/-- C10 witness at jd = 5/2 (with |jd| ≤ 2^63 and jd = 5 * 2^-1
representable). -/
theorem day_decomposition_witness :
    FP.fl (FP.fl ((julian.Date.DayNumber (5/2 : ℚ) : ℤ) : ℚ)
        + julian.Date.Time (5/2 : ℚ)) = julian.Date.Day (5/2 : ℚ) :=
  day_decomposition (5/2) ⟨5, -1, by norm_num, by norm_num⟩
    (by rw [abs_of_nonneg (by norm_num : (0:ℚ) ≤ 5/2)]; norm_num)
